import Mathlib

/-!
myblockchain: Merkle tree, ledger handlers and pool comparator.

A shallow embedding of `merklebaum/Merklebaum.go` and of the request handlers
and the mining round of `RestInterface.go`, followed by theorems about them.

The packages `blockchain`, `networking` and `wallet` are imported by these two
files but their sources are not available.  What the embedded functions call
from them (`ComputeSha256Hex`, `Block.ComputeHash`, `Block.Validate`,
`ComputeBlockHeight`, `Transaction.ComputePossibleFee`, `AddPeer`, ...) is taken
as a parameter of the embedding, so every theorem holds for whatever these
functions compute.
-/

namespace MyBlockchain

/-! ## merklebaum/Merklebaum.go -/

/-- A value of the Go type `*Merklebaum`: either `nil` or the address of a node
with the fields `Hash`, `left`, `right` and `elem`.  Nodes are never mutated
after their address has been taken, so a pointer is modelled by the node it
points to.  `α` is the type behind the interface `blockchain.Hashable`. -/
inductive MerklebaumPtr (α : Type) where
  | nil : MerklebaumPtr α
  | ref (Hash : String) (left right : MerklebaumPtr α) (elem : Option α) : MerklebaumPtr α
deriving DecidableEq, Repr

/-- The Go struct `Merklebaum`. -/
structure Merklebaum (α : Type) where
  Hash : String
  left : MerklebaumPtr α
  right : MerklebaumPtr α
  elem : Option α
deriving DecidableEq, Repr

/-- The zero value `Merklebaum{}`. -/
def Merklebaum.zero {α : Type} : Merklebaum α :=
  { Hash := "", left := MerklebaumPtr.nil, right := MerklebaumPtr.nil, elem := none }

/-- The Go expression `&m`. -/
def Merklebaum.addr {α : Type} (m : Merklebaum α) : MerklebaumPtr α :=
  MerklebaumPtr.ref m.Hash m.left m.right m.elem

/-- The Go expression `*p`; `none` is the nil-pointer panic. -/
def MerklebaumPtr.deref {α : Type} : MerklebaumPtr α → Option (Merklebaum α)
  | MerklebaumPtr.nil => none
  | MerklebaumPtr.ref h l r e => some { Hash := h, left := l, right := r, elem := e }

/-- What `input += p.Hash` under the guard `p != nil` appends in `ComputeHash`:
the `Hash` field of the node, nothing for a nil pointer. -/
def MerklebaumPtr.hashOrEmpty {α : Type} : MerklebaumPtr α → String
  | MerklebaumPtr.nil => ""
  | MerklebaumPtr.ref h _ _ _ => h

/-- `func (self Merklebaum) ComputeHash() string`.  `ComputeSha256Hex` is
`blockchain.ComputeSha256Hex`, `elemHash` is the method `ComputeHash` of the
element behind `elem`. -/
def Merklebaum.ComputeHash {α : Type} (ComputeSha256Hex : String → String)
    (elemHash : α → String) (self : Merklebaum α) : String :=
  match self.elem with
  | some e => elemHash e
  | none =>
    let input := "0"
    let input := input ++ self.left.hashOrEmpty
    let input := input ++ self.right.hashOrEmpty
    ComputeSha256Hex input

/-- The node `neuerbaum` built in one iteration of the loop of
`createMerkleLevel`: `Merklebaum{left: l, right: r}` with its `Hash` then set to
its own `ComputeHash()`. -/
def neuerbaum {α : Type} (ComputeSha256Hex : String → String) (elemHash : α → String)
    (l r : MerklebaumPtr α) : Merklebaum α :=
  let n : Merklebaum α := { Hash := "", left := l, right := r, elem := none }
  { n with Hash := n.ComputeHash ComputeSha256Hex elemHash }

/-- The loop `for i := 0; i+1 < len(bäume); i += 2` of `createMerkleLevel`:
one new parent per adjacent pair, a trailing single node is skipped. -/
def pairLoop {α : Type} (ComputeSha256Hex : String → String) (elemHash : α → String) :
    List (MerklebaumPtr α) → List (MerklebaumPtr α)
  | l :: r :: rest =>
    (neuerbaum ComputeSha256Hex elemHash l r).addr :: pairLoop ComputeSha256Hex elemHash rest
  | _ => []

/-- `func createMerkleLevel(bäume []*Merklebaum) []*Merklebaum`. -/
def createMerkleLevel {α : Type} (ComputeSha256Hex : String → String) (elemHash : α → String)
    (baeume : List (MerklebaumPtr α)) : List (MerklebaumPtr α) :=
  let result := pairLoop ComputeSha256Hex elemHash baeume
  if baeume.length % 2 = 1 then
    result ++ [(({ Hash := "", left := baeume.getD (baeume.length - 1) MerklebaumPtr.nil,
                   right := MerklebaumPtr.nil, elem := none } : Merklebaum α)).addr]
  else result

/-- The loop `for len(bäume) > 1 { bäume = createMerkleLevel(bäume) }`, run for
at most `fuel` rounds. -/
def levelLoop {α : Type} (ComputeSha256Hex : String → String) (elemHash : α → String) :
    Nat → List (MerklebaumPtr α) → List (MerklebaumPtr α)
  | 0, baeume => baeume
  | fuel + 1, baeume =>
    if baeume.length > 1 then
      levelLoop ComputeSha256Hex elemHash fuel (createMerkleLevel ComputeSha256Hex elemHash baeume)
    else baeume

/-- `func CreateMerklebaum(content []blockchain.Hashable) Merklebaum`; `none` is
a run-time panic.  The leaves are collected in `leafs`; `bäume` is created with
length 0 (and capacity `len(leafs)`) and nothing is appended to it before the
loop and the final `*bäume[0]`. -/
def CreateMerklebaum {α : Type} (ComputeSha256Hex : String → String) (elemHash : α → String)
    (content : List α) : Option (Merklebaum α) :=
  if content.length = 0 then some Merklebaum.zero
  else
    let _leafs : List (Merklebaum α) :=
      content.map (fun c => { Hash := elemHash c, left := MerklebaumPtr.nil,
                              right := MerklebaumPtr.nil, elem := some c })
    let baeume : List (MerklebaumPtr α) := []
    let baeume := levelLoop ComputeSha256Hex elemHash baeume.length baeume
    match baeume[0]? with
    | none => none
    | some p => p.deref

/-- `func (self Merklebaum) IsValid() bool`. -/
def Merklebaum.IsValid {α : Type} (_self : Merklebaum α) : Bool := false

/-- `func (self Merklebaum) IsLeaf() bool`. -/
def Merklebaum.IsLeaf {α : Type} [DecidableEq α] (self : Merklebaum α) : Bool :=
  self.left = MerklebaumPtr.nil && self.right = MerklebaumPtr.nil

/-- `func (self Merklebaum) HasNode(path []string) bool`. -/
def Merklebaum.HasNode {α : Type} (_self : Merklebaum α) (_path : List String) : Bool := false

/-- `func (self Merklebaum) GetElements() []blockchain.Hashable`. -/
def Merklebaum.GetElements {α : Type} (_self : Merklebaum α) : List α := []

/-- `func (self Merklebaum) CreateSpvProof(leaf blockchain.Hashable) (proof []string, ok bool)`. -/
def Merklebaum.CreateSpvProof {α : Type} (_self : Merklebaum α) (_leaf : α) :
    List String × Bool := ([], true)

/-- `func (self Merklebaum) Contains(leaf blockchain.Hashable) bool`. -/
def Merklebaum.Contains {α : Type} (_self : Merklebaum α) (_leaf : α) : Bool := false

/-! ## Data declared in package `blockchain` -/

/-- Modelled from the spec: the type `Txoutput` is declared in package
`blockchain`, which is missing.  The spec gives it an owning verification key
and a value; `Crypto.go` reads the fields `pubkey` and `value`. -/
structure Txoutput where
  Pubkey : String
  Value : Int
deriving DecidableEq, Repr

/-- Modelled from the spec: the type of a transaction input is declared in
package `blockchain`, which is missing.  The spec gives it a reference to a
prior output and a signature; `Crypto.go` reads the fields `from` and `sig`. -/
structure Txinput where
  From : Txoutput
  Sig : String
deriving DecidableEq, Repr

/-- Modelled from the spec: the type `Transaction` is declared in package
`blockchain`, which is missing.  The spec gives it ordered inputs, ordered
outputs and a free-form message; `Network_test.go` sets the field `Message`. -/
structure Transaction where
  Inputs : List Txinput
  Outputs : List Txoutput
  Message : String
deriving DecidableEq, Repr

/-- The zero value `blockchain.Transaction{}`. -/
def Transaction.zero : Transaction := { Inputs := [], Outputs := [], Message := "" }

/-- Modelled from the spec: the type `Block` is declared in package
`blockchain`, which is missing.  `RestInterface.go` and `Network_test.go` use
the fields `Prev`, `Hash` and `Transactions` (a value with the method
`GetElements`, the Merkle tree over the transactions); the spec adds the
proof-of-work nonce. -/
structure Block where
  Prev : String
  Hash : String
  Transactions : Merklebaum Transaction
  Nonce : Nat
deriving DecidableEq, Repr

/-- The zero value `blockchain.Block{}`, which a Go map returns for a missing key. -/
def Block.zero : Block :=
  { Prev := "", Hash := "", Transactions := Merklebaum.zero, Nonce := 0 }

/-! ## RestInterface.go: state -/

/-- A Go map with string keys. -/
abbrev GoMap (β : Type) := String → Option β

/-- The Go expression `m[k]` in value position: the zero value for a missing key. -/
def GoMap.index {β : Type} (m : GoMap β) (zero : β) (k : String) : β := (m k).getD zero

/-- The Go statement `m[k] = v`. -/
def GoMap.set {β : Type} (m : GoMap β) (k : String) (v : β) : GoMap β :=
  fun k2 => if k2 = k then some v else m k2

/-- The values of type `interface{}` that reach the pool and its comparator: a
`blockchain.Transaction`, a `*blockchain.Transaction` (what `PostTransaction`
and `createTxContinously` add) and the Merkle tree `newblock.Transactions`
(what `PostBlock` removes). -/
inductive PoolItem where
  | tx (t : Transaction) : PoolItem
  | txPtr (t : Transaction) : PoolItem
  | tree (m : Merklebaum Transaction) : PoolItem
deriving DecidableEq, Repr

/-- The Go expression `x, _ := a.(blockchain.Transaction)`: the transaction when
the dynamic type of `a` is `blockchain.Transaction`, the zero value otherwise. -/
def PoolItem.assertTransaction : PoolItem → Transaction
  | PoolItem.tx t => t
  | _ => Transaction.zero

/-- `func compareTxByCollectableFee(a, b interface{}) int`.
`ComputePossibleFee` is the method of `blockchain.Transaction`. -/
def compareTxByCollectableFee (ComputePossibleFee : Transaction → Int) (a b : PoolItem) : Int :=
  let txA := a.assertTransaction
  let txB := b.assertTransaction
  let feeA := ComputePossibleFee txA
  let feeB := ComputePossibleFee txB
  if feeA > feeB then 1
  else if feeA < feeB then -1
  else 0

/-- `Remove` of one item on a `treeset.Set` (library `gods`), the set given by
its elements in order: the tree looks the item up with the comparator and
deletes the node it finds. -/
def treesetRemove (cmp : PoolItem → PoolItem → Int) : List PoolItem → PoolItem → List PoolItem
  | [], _ => []
  | e :: rest, item => if cmp item e = 0 then rest else e :: treesetRemove cmp rest item

/-- The invariant of a `treeset.Set`: no two of its elements compare equal. -/
def TreesetWF (cmp : PoolItem → PoolItem → Int) (set : List PoolItem) : Prop :=
  set.Pairwise (fun a b => cmp a b ≠ 0)

/-- The package-level variables of `RestInterface.go` that hold the ledger. -/
structure NodeState where
  currentHead : String
  genesis : String
  blocklist : GoMap Block
  unclaimedTransactions : List PoolItem
  utxoList : GoMap Txoutput

/-! ## RestInterface.go: handlers and mining round -/

/-- `func PostBlock(writer, request)`: the new state and the response status.
`decoded` is `newblock` after `json.NewDecoder(request.Body).Decode(&newblock)`
(`none` for a nil pointer).  `ComputeHash` and `Validate` are the methods of
`blockchain.Block`, `ComputeBlockHeight` is `blockchain.ComputeBlockHeight`.
The call `wallet.TxHasBeenPublished(newblock.Transactions.GetElements())`
receives the empty list of `GetElements` and has no access to the variables of
this file.  A handler that never calls `WriteHeader` answers 200. -/
def PostBlock (ComputeHash : Block → String) (Validate : Block → Bool)
    (ComputeBlockHeight : Block → GoMap Block → Int) (ComputePossibleFee : Transaction → Int)
    (s : NodeState) (decoded : Option Block) : NodeState × Nat :=
  match decoded with
  | some nb =>
    let newblock : Block := { nb with Hash := ComputeHash nb }
    if !Validate newblock then (s, 422)
    else
      let blocklist := s.blocklist.set newblock.Hash newblock
      let currentHead :=
        if ComputeBlockHeight newblock blocklist >
            ComputeBlockHeight (blocklist.index Block.zero s.currentHead) blocklist
        then ComputeHash newblock else s.currentHead
      let pool := treesetRemove (compareTxByCollectableFee ComputePossibleFee)
        s.unclaimedTransactions (PoolItem.tree newblock.Transactions)
      ({ s with blocklist := blocklist, currentHead := currentHead,
                unclaimedTransactions := pool }, 200)
  | none => (s, 400)

/-- One round of the outer loop of `func mineContinously(maxdelay int)` from the
point where the inner loop `for !valid` has ended: `txToInclude` is the list the
round selected (with the claimed fees and the coinbase appended), `newblock` is
the block of the successful `blockchain.MineAttempt(txToInclude, currentHead)`. -/
def mineRound (ComputeBlockHeight : Block → GoMap Block → Int)
    (ComputePossibleFee : Transaction → Int)
    (s : NodeState) (txToInclude : List PoolItem) (newblock : Block) : NodeState :=
  if ComputeBlockHeight newblock s.blocklist >
      ComputeBlockHeight (s.blocklist.index Block.zero s.currentHead) s.blocklist then
    let pool := txToInclude.foldl
      (treesetRemove (compareTxByCollectableFee ComputePossibleFee)) s.unclaimedTransactions
    { s with unclaimedTransactions := pool,
             blocklist := s.blocklist.set newblock.Hash newblock,
             currentHead := newblock.Hash }
  else s

/-- An HTTP response: the status and, when the body was written by `writeJson`,
the value that was marshalled. -/
structure Response (β : Type) where
  status : Nat
  json : Option β
deriving DecidableEq, Repr

/-- `strconv.Atoi` of the Go standard library on a 64-bit platform: an optional
sign followed by one or more decimal digits, the value within the range of
`int`; `none` is a non-nil `err`. -/
def Atoi (s : String) : Option Int :=
  let cs := s.toList
  let signed : Bool × List Char :=
    match cs with
    | '-' :: r => (true, r)
    | '+' :: r => (false, r)
    | _ => (false, cs)
  let ds := signed.2
  if ds.isEmpty then none
  else if ds.all Char.isDigit then
    let n : Nat := ds.foldl (fun a c => 10 * a + (c.toNat - 48)) 0
    let v : Int := if signed.1 then -(n : Int) else (n : Int)
    if -(2 : Int) ^ 63 ≤ v ∧ v < (2 : Int) ^ 63 then some v else none
  else none

/-- The loop `for i := 0; i < num && ok && current != ""; i++` of
`GetSpecificBlocks` with `remaining = num - i` rounds left.  `ok` is the
variable declared before the loop; the `ok` of `block, ok := blocklist[current]`
is a new variable of the loop body. -/
def blocksLoop (blocklist : GoMap Block) (ok : Bool) :
    Nat → List Block → String → List Block
  | 0, result, _ => result
  | remaining + 1, result, current =>
    if ok && current != "" then
      match blocklist current with
      | some block => blocksLoop blocklist ok remaining (result ++ [block]) block.Prev
      | none => blocksLoop blocklist ok remaining result current
    else result

/-- The bound `maxAlloc` of the Go runtime on a 64-bit platform: no single
allocation may exceed 2^48 bytes. -/
def maxAlloc : Nat := 2 ^ 48

/-- The Go expression `make([]T, 0, cap)` for an element type of `elemSize`
bytes: the runtime function `makeslice` panics ("cap out of range") when `cap`
is negative or `elemSize * cap` exceeds `maxAlloc`, and returns the empty slice
otherwise.  `none` is the panic. -/
def makeSlice (β : Type) (elemSize : Nat) (cap : Int) : Option (List β) :=
  if cap < 0 ∨ elemSize * cap.toNat > maxAlloc then none else some []

/-- `func GetSpecificBlocks(writer, request)`; `none` is a run-time panic, after
which the handler writes no response.  `hashVar` is `mux.Vars(request)["hash"]`
(`none` when the variable is absent), `numParam` is `request.FormValue("num")`,
`blockSize` is the size in bytes of the type `blockchain.Block`, which is
declared in the missing package `blockchain`. -/
def GetSpecificBlocks (blockSize : Nat) (s : NodeState) (hashVar : Option String)
    (numParam : String) : Option (Response (List Block)) :=
  match Atoi numParam with
  | none => some { status := 400, json := none }
  | some num =>
    if num ≤ 0 then some { status := 400, json := none }
    else
      match makeSlice Block blockSize num with
      | none => none
      | some result =>
        let current := hashVar.getD ""
        let ok := hashVar.isSome
        let result := blocksLoop s.blocklist ok num.toNat result current
        some { status := 200, json := some result }

/-- The walk the specification describes: `table[h]`, then the block under its
`Prev`, and so on, at most `n` blocks, ending at an empty or unknown hash. -/
def chainFrom (table : GoMap Block) : Nat → String → List Block
  | 0, _ => []
  | n + 1, h =>
    if h = "" then []
    else
      match table h with
      | none => []
      | some b => b :: chainFrom table n b.Prev

/-- The hash the walk would look up after the blocks `bs`, having started at `h`. -/
def nextHash (h : String) (bs : List Block) : String :=
  match bs.getLast? with
  | none => h
  | some b => b.Prev

/-! ## Package `networking` -/

/-- Modelled from the spec: the type `Peer` is declared in package `networking`,
which is missing; a peer is known by its address. -/
structure Peer where
  Addr : String
deriving DecidableEq, Repr

/-- Modelled from the spec: `networking.CreatePeer` is missing.  A peer is
created from every address (the test calls `Validate` on the peer created from
"ftp://heise.de/"). -/
def specCreatePeer (addr : String) : Option Peer := some { Addr := addr }

/-- Modelled from the spec: `Peer.Validate` is missing.  "An address is accepted
only with an http/https scheme": the address starts with `http://` or with
`https://`. -/
def specPeerValidate (p : Peer) : Bool :=
  "http://".toList.isPrefixOf p.Addr.toList || "https://".toList.isPrefixOf p.Addr.toList

/-- `func GetPeers(writer, request)`: the new `networking.PeerList` and the
response.  `peeraddr` is `request.FormValue("url")`; `CreatePeer`, `Validate`
and `AddPeer` are the functions of package `networking`. -/
def GetPeers (CreatePeer : String → Option Peer) (Validate : Peer → Bool)
    (AddPeer : List Peer → Peer → List Peer)
    (PeerList : List Peer) (peeraddr : String) : List Peer × Response (List Peer) :=
  let PeerList :=
    if peeraddr != "" then
      match CreatePeer peeraddr with
      | some created => if Validate created then AddPeer PeerList created else PeerList
      | none => PeerList
    else PeerList
  (PeerList, { status := 200, json := some PeerList })

/-! ## Example data -/

/-- A stand-in for `blockchain.ComputeSha256Hex` used in the examples: it marks
its input instead of digesting it. -/
def exampleSha (input : String) : String := "H(" ++ input ++ ")"

/-- The leaf `Merklebaum{Hash: x.ComputeHash(), elem: &x}` of an element whose
content hash is the element itself. -/
def exampleLeaf (x : String) : Merklebaum String :=
  { Hash := x, left := MerklebaumPtr.nil, right := MerklebaumPtr.nil, elem := some x }

/-- A stand-in for the method `ComputeHash` of a transaction used in the
examples: the message of the transaction. -/
def exampleTxHash (t : Transaction) : String := t.Message

/-- A stand-in for the method `ComputeHash` of `blockchain.Block` used in the
examples; as in the spec it covers the previous hash, the Merkle root and the
nonce. -/
def exampleBlockHash (b : Block) : String :=
  "B(" ++ b.Prev ++ "," ++ b.Transactions.Hash ++ "," ++
    String.mk (List.replicate b.Nonce 'i') ++ ")"

/-- Modelled from the spec: `Block.Validate` is missing.  Of the checks the spec
lists, the examples keep the comparison of the stored Merkle root with the
recomputed one. -/
def exampleValidate (b : Block) : Bool :=
  b.Transactions.Hash == b.Transactions.ComputeHash exampleSha exampleTxHash

/-- Modelled from the spec: `blockchain.ComputeBlockHeight` is missing.
`height(genesis) = 0` (empty previous hash) and `height(b) = height(parent(b)) + 1`,
following the previous-hash links for at most `fuel` steps; 0 when a link is
missing. -/
def specBlockHeight : Nat → Block → GoMap Block → Int
  | 0, _, _ => 0
  | fuel + 1, b, table =>
    if b.Prev = "" then 0
    else
      match table b.Prev with
      | some parent => specBlockHeight fuel parent table + 1
      | none => 0

/-- Modelled from the spec: `Transaction.ComputePossibleFee` is missing.  The fee
is the sum of the input values minus the sum of the output values. -/
def specPossibleFee (t : Transaction) : Int :=
  (t.Inputs.map (fun i => i.From.Value)).sum - (t.Outputs.map (fun o => o.Value)).sum

/-- The items a Merkle tree holds: the elements behind the `elem` pointers of
its nodes, from left to right. -/
def MerklebaumPtr.items {α : Type} : MerklebaumPtr α → List α
  | MerklebaumPtr.nil => []
  | MerklebaumPtr.ref _ l r e => e.toList ++ l.items ++ r.items

/-- The transactions of a block: the items of its Merkle tree. -/
def Block.transactionList (b : Block) : List Transaction := b.Transactions.addr.items

/-- The postcondition the specification gives for the UTXO set after `b` has
been applied: no output referenced by an input of a transaction of `b` is in
the set, and every output created by a transaction of `b` is. -/
def UtxoDeltasApplied (utxo : GoMap Txoutput) (b : Block) : Prop :=
  (∀ t ∈ b.transactionList, ∀ i ∈ t.Inputs, ∀ k : String, utxo k ≠ some i.From) ∧
  (∀ t ∈ b.transactionList, ∀ o ∈ t.Outputs, ∃ k : String, utxo k = some o)

/-- The genesis block of the examples. -/
def exampleGenesis : Block :=
  { Prev := "", Hash := "G", Transactions := Merklebaum.zero, Nonce := 0 }

/-- An output owned by "alice", spendable in the example state. -/
def exampleOutAlice : Txoutput := { Pubkey := "alice", Value := 10 }

/-- The output the example transaction creates for "bob". -/
def exampleOutBob : Txoutput := { Pubkey := "bob", Value := 7 }

/-- A transaction spending the output of "alice" and paying "bob"; its fee is 3. -/
def exampleTx : Transaction :=
  { Inputs := [{ From := exampleOutAlice, Sig := "sig" }], Outputs := [exampleOutBob],
    Message := "pay bob" }

/-- A second transaction with the same fee 3 and another message. -/
def exampleTx2 : Transaction :=
  { Inputs := [{ From := { Pubkey := "carol", Value := 4 }, Sig := "sig2" }],
    Outputs := [{ Pubkey := "dave", Value := 1 }], Message := "pay dave" }

/-- A block on top of the example genesis holding `exampleTx`; the stored Merkle
root is the hash of its only leaf. -/
def exampleBlock : Block :=
  { Prev := "G", Hash := "",
    Transactions := { Hash := "pay bob", left := MerklebaumPtr.nil,
                      right := MerklebaumPtr.nil, elem := some exampleTx },
    Nonce := 2 }

/-- The example block as `PostBlock` stores it, with its `Hash` recomputed. -/
def exampleBlockHashed : Block :=
  { exampleBlock with Hash := exampleBlockHash exampleBlock }

/-- The block `exampleBlock` with a stored Merkle root that does not match. -/
def exampleBadBlock : Block :=
  { exampleBlock with
    Transactions := { exampleBlock.Transactions with Hash := "forged" } }

/-- A ledger state: genesis only, one pending transaction, one spendable output. -/
def exampleState : NodeState :=
  { currentHead := "G", genesis := "G",
    blocklist := GoMap.set (fun _ => none) "G" exampleGenesis,
    unclaimedTransactions := [PoolItem.txPtr exampleTx],
    utxoList := GoMap.set (fun _ => none) "alice" exampleOutAlice }

/-- A ledger state with the example block, stored under "B1", on top of genesis. -/
def exampleChainState : NodeState :=
  { exampleState with
    currentHead := "B1",
    blocklist := GoMap.set exampleState.blocklist "B1" { exampleBlock with Hash := "B1" } }

/-- A stand-in for `networking.AddPeer` used in the examples: append to the list. -/
def exampleAddPeer (peers : List Peer) (p : Peer) : List Peer := peers ++ [p]

/-- An address has the scheme `scheme` when it starts with `scheme://`. -/
def HasScheme (scheme : String) (addr : String) : Prop :=
  ∃ rest : List Char, addr.toList = scheme.toList ++ "://".toList ++ rest

/-! ## Theorems: Merkle tree -/

theorem pairLoop_length {α : Type} (sha : String → String) (eh : α → String) :
    ∀ (n : Nat) (l : List (MerklebaumPtr α)), l.length ≤ n →
      (pairLoop sha eh l).length = l.length / 2 := by
  intro n
  induction n using Nat.strong_induction_on with
  | _ n ih =>
    intro l hl
    match l with
    | [] => simp [pairLoop]
    | [_] => simp [pairLoop]
    | a :: b :: rest =>
      have h := ih (n - 2) (by simp at hl; omega) rest (by simp at hl; omega)
      simp only [pairLoop, List.length_cons, h]
      omega

theorem pairLoop_getElem? {α : Type} (sha : String → String) (eh : α → String) :
    ∀ (n : Nat) (l : List (MerklebaumPtr α)) (i : Nat), l.length ≤ n → i < l.length / 2 →
      (pairLoop sha eh l)[i]? =
        some (neuerbaum sha eh (l.getD (2 * i) MerklebaumPtr.nil)
          (l.getD (2 * i + 1) MerklebaumPtr.nil)).addr := by
  intro n
  induction n using Nat.strong_induction_on with
  | _ n ih =>
    intro l i hl hi
    match l with
    | [] => simp at hi
    | [_] => exact absurd hi (by simp)
    | a :: b :: rest =>
      cases i with
      | zero => simp [pairLoop]
      | succ j =>
        have hj : j < rest.length / 2 := by simp at hi; omega
        have h := ih (n - 2) (by simp at hl; omega) rest j (by simp at hl; omega) hj
        have e : 2 * (j + 1) = 2 * j + 1 + 1 := by ring
        simp [pairLoop, h, e]

theorem createMerkleLevel_length {α : Type} (sha : String → String) (eh : α → String)
    (l : List (MerklebaumPtr α)) :
    (createMerkleLevel sha eh l).length = l.length / 2 + l.length % 2 := by
  unfold createMerkleLevel
  have h := pairLoop_length sha eh l.length l le_rfl
  rcases Nat.mod_two_eq_zero_or_one l.length with h0 | h1
  · simp [h0, h]
  · simp [h1, h]

/-- With fuel `len(bäume)` the loop of `CreateMerklebaum` runs to its end: at
most one tree is left. -/
theorem levelLoop_length_le_one {α : Type} (sha : String → String) (eh : α → String) :
    ∀ (fuel : Nat) (l : List (MerklebaumPtr α)), l.length ≤ fuel →
      (levelLoop sha eh fuel l).length ≤ 1 := by
  intro fuel
  induction fuel with
  | zero => intro l hl; simp [levelLoop]; omega
  | succ k ih =>
    intro l hl
    unfold levelLoop
    split
    · next hgt =>
      apply ih
      rw [createMerkleLevel_length]
      omega
    · next hle => omega

/-- C1: for every non-empty list of items `CreateMerklebaum` does not return a
root: the slice of trees is still empty when its first entry is read, which is
a run-time panic. -/
theorem CreateMerklebaum_nonempty_panics {α : Type} (sha : String → String)
    (eh : α → String) (x : α) (rest : List α) :
    CreateMerklebaum sha eh (x :: rest) = none := by
  simp [CreateMerklebaum, levelLoop]

/-- C5: on the one-leaf tree over the list `["a"]`, `Contains` denies the
element of the list, while `CreateSpvProof` reports a proof for an element that
is not in the list. -/
theorem Contains_denies_member :
    "a" ∈ ["a"] ∧ (exampleLeaf "a").elem = some "a" ∧
      (exampleLeaf "a").Contains "a" = false ∧
      "b" ∉ ["a"] ∧ (exampleLeaf "a").CreateSpvProof "b" = ([], true) := by
  refine ⟨by simp, rfl, rfl, by simp, rfl⟩

/-- C10 as stated fails: for the one-node list the last element of the new
level is not the input node but a new node with an empty `Hash`. -/
theorem createMerkleLevel_last_not_promoted :
    [(exampleLeaf "a").addr].length % 2 = 1 ∧
      (createMerkleLevel exampleSha id [(exampleLeaf "a").addr]).getLast? ≠
        some (exampleLeaf "a").addr ∧
      (createMerkleLevel exampleSha id [(exampleLeaf "a").addr]).getLast? =
        some (MerklebaumPtr.ref "" (exampleLeaf "a").addr MerklebaumPtr.nil none) := by
  decide

/-- C10 amended: for a list of odd length the new level has `len/2 + 1` nodes;
its last node is a new node whose left child is the last input node and which
has no right child and no element; every other node `i` is a new parent of the
input nodes `2i` and `2i+1` with `Hash = sha("0" ++ Hash(2i) ++ Hash(2i+1))`. -/
theorem createMerkleLevel_odd {α : Type} (sha : String → String) (eh : α → String)
    (baeume : List (MerklebaumPtr α)) (hodd : baeume.length % 2 = 1) :
    (createMerkleLevel sha eh baeume).length = baeume.length / 2 + 1 ∧
    (∃ h : String, (createMerkleLevel sha eh baeume).getLast? =
      some (MerklebaumPtr.ref h (baeume.getD (baeume.length - 1) MerklebaumPtr.nil)
        MerklebaumPtr.nil none)) ∧
    (∀ i : Nat, i < baeume.length / 2 →
      (createMerkleLevel sha eh baeume)[i]? =
        some (MerklebaumPtr.ref
          (sha ("0" ++ (baeume.getD (2 * i) MerklebaumPtr.nil).hashOrEmpty ++
            (baeume.getD (2 * i + 1) MerklebaumPtr.nil).hashOrEmpty))
          (baeume.getD (2 * i) MerklebaumPtr.nil)
          (baeume.getD (2 * i + 1) MerklebaumPtr.nil) none)) := by
  refine ⟨?_, ?_, ?_⟩
  · rw [createMerkleLevel_length, hodd]
  · refine ⟨"", ?_⟩
    simp [createMerkleLevel, hodd, Merklebaum.addr]
  · intro i hi
    have hlen := pairLoop_length sha eh baeume.length baeume le_rfl
    have hget := pairLoop_getElem? sha eh baeume.length baeume i le_rfl hi
    simp only [createMerkleLevel, hodd, if_true]
    rw [List.getElem?_append_left (by omega), hget]
    simp [neuerbaum, Merklebaum.addr, Merklebaum.ComputeHash]

/-- The level above three leaves has two nodes. -/
theorem createMerkleLevel_odd_witness :
    [(exampleLeaf "a").addr, (exampleLeaf "b").addr, (exampleLeaf "c").addr].length % 2 = 1 ∧
    (createMerkleLevel exampleSha id
      [(exampleLeaf "a").addr, (exampleLeaf "b").addr, (exampleLeaf "c").addr]).length = 2 :=
  ⟨by decide,
   (createMerkleLevel_odd exampleSha id
      [(exampleLeaf "a").addr, (exampleLeaf "b").addr, (exampleLeaf "c").addr] (by decide)).1⟩

/-! ## Theorems: block acceptance -/

theorem GoMap.set_set {β : Type} (m : GoMap β) (k : String) (v : β) :
    (m.set k v).set k v = m.set k v := by
  funext k2
  simp only [GoMap.set]
  split <;> rfl

theorem GoMap.set_same {β : Type} (m : GoMap β) (k : String) (v : β) :
    (m.set k v) k = some v := by
  simp [GoMap.set]

/-- What `PostBlock` does with a block that passes validation. -/
theorem PostBlock_valid (ComputeHash : Block → String) (Validate : Block → Bool)
    (ComputeBlockHeight : Block → GoMap Block → Int) (ComputePossibleFee : Transaction → Int)
    (s : NodeState) (nb : Block)
    (hvalid : Validate { nb with Hash := ComputeHash nb } = true) :
    PostBlock ComputeHash Validate ComputeBlockHeight ComputePossibleFee s (some nb) =
      ({ s with
          blocklist := s.blocklist.set (ComputeHash nb) { nb with Hash := ComputeHash nb },
          currentHead :=
            if ComputeBlockHeight { nb with Hash := ComputeHash nb }
                (s.blocklist.set (ComputeHash nb) { nb with Hash := ComputeHash nb }) >
              ComputeBlockHeight
                ((s.blocklist.set (ComputeHash nb) { nb with Hash := ComputeHash nb }).index
                  Block.zero s.currentHead)
                (s.blocklist.set (ComputeHash nb) { nb with Hash := ComputeHash nb })
            then ComputeHash { nb with Hash := ComputeHash nb } else s.currentHead,
          unclaimedTransactions :=
            treesetRemove (compareTxByCollectableFee ComputePossibleFee)
              s.unclaimedTransactions (PoolItem.tree nb.Transactions) }, 200) := by
  simp [PostBlock, hvalid]

/-- C3: a block for which `Validate()` is false is answered with status 422 and
the whole state (block table, head, pool, UTXO set) is returned as it was. -/
theorem PostBlock_invalid_rejected (ComputeHash : Block → String) (Validate : Block → Bool)
    (ComputeBlockHeight : Block → GoMap Block → Int) (ComputePossibleFee : Transaction → Int)
    (s : NodeState) (nb : Block)
    (hinvalid : Validate { nb with Hash := ComputeHash nb } = false) :
    PostBlock ComputeHash Validate ComputeBlockHeight ComputePossibleFee s (some nb) =
      (s, 422) := by
  simp [PostBlock, hinvalid]

/-- The example block with a forged Merkle root is rejected and the example
state is returned as it was. -/
theorem PostBlock_invalid_rejected_witness :
    exampleValidate { exampleBadBlock with Hash := exampleBlockHash exampleBadBlock } = false ∧
    PostBlock exampleBlockHash exampleValidate (specBlockHeight 16) specPossibleFee
      exampleState (some exampleBadBlock) = (exampleState, 422) :=
  ⟨by decide,
   PostBlock_invalid_rejected exampleBlockHash exampleValidate (specBlockHeight 16)
     specPossibleFee exampleState exampleBadBlock (by decide)⟩

/-- C2: `PostBlock` of a block that passes validation stores the block and
changes `currentHead` only to the hash of that block and only when its height
strictly exceeds the height of the current head; a block that is not higher
leaves the head as it was and is stored all the same.  A mining round changes
`currentHead` only to the hash of the mined block and only when its height
strictly exceeds the height of the current head; otherwise the state is
unchanged. -/
theorem head_moves_only_to_higher_block (ComputeHash : Block → String)
    (Validate : Block → Bool) (ComputeBlockHeight : Block → GoMap Block → Int)
    (ComputePossibleFee : Transaction → Int) (s : NodeState) (nb : Block)
    (txToInclude : List PoolItem) (mined : Block) :
    (Validate { nb with Hash := ComputeHash nb } = true →
     let newblock : Block := { nb with Hash := ComputeHash nb }
     let table := s.blocklist.set newblock.Hash newblock
     let s2 := (PostBlock ComputeHash Validate ComputeBlockHeight ComputePossibleFee
       s (some nb)).1
     s2.blocklist = table ∧ s2.blocklist newblock.Hash = some newblock ∧
     (s2.currentHead ≠ s.currentHead →
       s2.currentHead = ComputeHash newblock ∧
       ComputeBlockHeight newblock table >
         ComputeBlockHeight (table.index Block.zero s.currentHead) table) ∧
     (ComputeBlockHeight newblock table ≤
         ComputeBlockHeight (table.index Block.zero s.currentHead) table →
       s2.currentHead = s.currentHead)) ∧
    (let s3 := mineRound ComputeBlockHeight ComputePossibleFee s txToInclude mined
     (s3.currentHead ≠ s.currentHead →
       s3.currentHead = mined.Hash ∧
       ComputeBlockHeight mined s.blocklist >
         ComputeBlockHeight (s.blocklist.index Block.zero s.currentHead) s.blocklist) ∧
     (ComputeBlockHeight mined s.blocklist ≤
         ComputeBlockHeight (s.blocklist.index Block.zero s.currentHead) s.blocklist →
       s3 = s)) := by
  refine ⟨?_, ?_⟩
  · intro hvalid newblock table s2
    have hpost := PostBlock_valid ComputeHash Validate ComputeBlockHeight
      ComputePossibleFee s nb hvalid
    have hhead : s2.currentHead =
        if ComputeBlockHeight newblock table >
            ComputeBlockHeight (table.index Block.zero s.currentHead) table
        then ComputeHash newblock else s.currentHead := by
      show (PostBlock ComputeHash Validate ComputeBlockHeight ComputePossibleFee
        s (some nb)).1.currentHead = _
      rw [hpost]
    have htable : s2.blocklist = table := by
      show (PostBlock ComputeHash Validate ComputeBlockHeight ComputePossibleFee
        s (some nb)).1.blocklist = _
      rw [hpost]
    refine ⟨htable, ?_, ?_, ?_⟩
    · rw [htable]; exact GoMap.set_same _ _ _
    · intro hne
      rw [hhead] at hne ⊢
      split at hne
      · next hgt => rw [if_pos hgt]; exact ⟨rfl, hgt⟩
      · exact absurd rfl hne
    · intro hle
      rw [hhead, if_neg (not_lt.mpr hle)]
  · intro s3
    have hs3 : s3 = mineRound ComputeBlockHeight ComputePossibleFee s txToInclude mined := rfl
    refine ⟨?_, ?_⟩
    · intro hne
      by_cases hgt : ComputeBlockHeight mined s.blocklist >
          ComputeBlockHeight (s.blocklist.index Block.zero s.currentHead) s.blocklist
      · refine ⟨?_, hgt⟩
        rw [hs3, mineRound, if_pos hgt]
      · exfalso
        apply hne
        rw [hs3, mineRound, if_neg hgt]
    · intro hle
      rw [hs3, mineRound, if_neg (not_lt.mpr hle)]

/-- C4 as stated fails: the example block is valid and higher than the head
(in the table before and after its insertion), `PostBlock` accepts it with
status 200 and makes it the head, a mining round makes it the head as well, yet
in both resulting states the output its transaction spends is still in the UTXO
set and the output it creates is not. -/
theorem utxo_deltas_not_applied :
    exampleValidate exampleBlockHashed = true ∧
    specBlockHeight 16 exampleBlockHashed exampleState.blocklist >
      specBlockHeight 16 (exampleState.blocklist.index Block.zero exampleState.currentHead)
        exampleState.blocklist ∧
    specBlockHeight 16 exampleBlockHashed
        (exampleState.blocklist.set exampleBlockHashed.Hash exampleBlockHashed) >
      specBlockHeight 16
        ((exampleState.blocklist.set exampleBlockHashed.Hash exampleBlockHashed).index
          Block.zero exampleState.currentHead)
        (exampleState.blocklist.set exampleBlockHashed.Hash exampleBlockHashed) ∧
    (PostBlock exampleBlockHash exampleValidate (specBlockHeight 16) specPossibleFee
      exampleState (some exampleBlock)).2 = 200 ∧
    (PostBlock exampleBlockHash exampleValidate (specBlockHeight 16) specPossibleFee
      exampleState (some exampleBlock)).1.currentHead = exampleBlockHashed.Hash ∧
    (mineRound (specBlockHeight 16) specPossibleFee exampleState
      [PoolItem.tx exampleTx] exampleBlockHashed).currentHead = exampleBlockHashed.Hash ∧
    ¬ UtxoDeltasApplied
      (PostBlock exampleBlockHash exampleValidate (specBlockHeight 16) specPossibleFee
        exampleState (some exampleBlock)).1.utxoList exampleBlockHashed ∧
    ¬ UtxoDeltasApplied
      (mineRound (specBlockHeight 16) specPossibleFee exampleState
        [PoolItem.tx exampleTx] exampleBlockHashed).utxoList exampleBlockHashed := by
  have hitem : exampleTx ∈ exampleBlockHashed.transactionList := by decide
  have hin : ({ From := exampleOutAlice, Sig := "sig" } : Txinput) ∈ exampleTx.Inputs := by
    decide
  refine ⟨by decide, by decide, by decide, by decide, by decide, by decide, ?_, ?_⟩
  · intro h
    exact h.1 exampleTx hitem _ hin "alice" (by decide)
  · intro h
    exact h.1 exampleTx hitem _ hin "alice" (by decide)

/-- C4 amended: accepting a block, by `PostBlock` or by a mining round, leaves
the UTXO set exactly as it was. -/
theorem utxo_unchanged_by_acceptance (ComputeHash : Block → String)
    (Validate : Block → Bool) (ComputeBlockHeight : Block → GoMap Block → Int)
    (ComputePossibleFee : Transaction → Int) (s : NodeState) (decoded : Option Block)
    (txToInclude : List PoolItem) (mined : Block) :
    (PostBlock ComputeHash Validate ComputeBlockHeight ComputePossibleFee
      s decoded).1.utxoList = s.utxoList ∧
    (mineRound ComputeBlockHeight ComputePossibleFee s txToInclude mined).utxoList =
      s.utxoList := by
  refine ⟨?_, ?_⟩
  · unfold PostBlock
    cases decoded with
    | none => rfl
    | some nb =>
      dsimp only
      split <;> rfl
  · unfold mineRound
    split <;> rfl

/-- The valid example block is stored under its recomputed hash. -/
theorem head_moves_only_to_higher_block_witness :
    exampleValidate { exampleBlock with Hash := exampleBlockHash exampleBlock } = true ∧
    (PostBlock exampleBlockHash exampleValidate (specBlockHeight 16) specPossibleFee
      exampleState (some exampleBlock)).1.blocklist (exampleBlockHash exampleBlock) =
      some { exampleBlock with Hash := exampleBlockHash exampleBlock } :=
  ⟨by decide,
   ((head_moves_only_to_higher_block exampleBlockHash exampleValidate (specBlockHeight 16)
      specPossibleFee exampleState exampleBlock [PoolItem.tx exampleTx] exampleBlock).1
      (by decide)).2.1⟩

/-! ## Theorems: idempotence of `PostBlock` -/

theorem compareTxByCollectableFee_eq_zero (fee : Transaction → Int) (a b : PoolItem) :
    compareTxByCollectableFee fee a b = 0 ↔
      fee a.assertTransaction = fee b.assertTransaction := by
  unfold compareTxByCollectableFee
  simp only
  split
  · next h => simp; omega
  · split
    · next h1 h2 => simp; omega
    · next h1 h2 => simp; omega

theorem treesetRemove_no_match (cmp : PoolItem → PoolItem → Int) (item : PoolItem) :
    ∀ set : List PoolItem, (∀ e ∈ set, cmp item e ≠ 0) → treesetRemove cmp set item = set := by
  intro set
  induction set with
  | nil => intro _; rfl
  | cons e rest ih =>
    intro h
    have he : cmp item e ≠ 0 := h e (List.mem_cons_self _ _)
    have hrest := ih (fun x hx => h x (List.mem_cons_of_mem _ hx))
    simp [treesetRemove, he, hrest]

theorem treesetRemove_twice (fee : Transaction → Int) (item : PoolItem) :
    ∀ set : List PoolItem, TreesetWF (compareTxByCollectableFee fee) set →
      treesetRemove (compareTxByCollectableFee fee)
        (treesetRemove (compareTxByCollectableFee fee) set item) item =
      treesetRemove (compareTxByCollectableFee fee) set item := by
  intro set
  induction set with
  | nil => intro _; rfl
  | cons e rest ih =>
    intro hwf
    have hpair := List.pairwise_cons.mp hwf
    by_cases he : compareTxByCollectableFee fee item e = 0
    · simp only [treesetRemove, he, if_true]
      apply treesetRemove_no_match
      intro x hx hzero
      apply hpair.1 x hx
      rw [compareTxByCollectableFee_eq_zero] at he hzero ⊢
      rw [← he, hzero]
    · simp only [treesetRemove, he, if_false]
      rw [ih hpair.2]

/-- C8: for a block that passes validation, the state after submitting it to
`PostBlock` twice in a row equals the state after submitting it once (the pool
being a tree set: no two of its elements compare equal). -/
theorem PostBlock_twice (ComputeHash : Block → String) (Validate : Block → Bool)
    (ComputeBlockHeight : Block → GoMap Block → Int) (ComputePossibleFee : Transaction → Int)
    (s : NodeState) (nb : Block)
    (hvalid : Validate { nb with Hash := ComputeHash nb } = true)
    (hpool : TreesetWF (compareTxByCollectableFee ComputePossibleFee) s.unclaimedTransactions) :
    PostBlock ComputeHash Validate ComputeBlockHeight ComputePossibleFee
      (PostBlock ComputeHash Validate ComputeBlockHeight ComputePossibleFee s (some nb)).1
      (some nb) =
    PostBlock ComputeHash Validate ComputeBlockHeight ComputePossibleFee s (some nb) := by
  rw [PostBlock_valid ComputeHash Validate ComputeBlockHeight ComputePossibleFee s nb hvalid]
  rw [PostBlock_valid ComputeHash Validate ComputeBlockHeight ComputePossibleFee _ nb hvalid]
  simp only [GoMap.set_set, treesetRemove_twice ComputePossibleFee _ _ hpool]
  congr 2
  split
  · next h1 => simp only [ite_self]
  · next h1 => simp only [if_neg h1]

/-- Submitting the valid example block twice gives the state of submitting it once. -/
theorem PostBlock_twice_witness :
    exampleValidate { exampleBlock with Hash := exampleBlockHash exampleBlock } = true ∧
    TreesetWF (compareTxByCollectableFee specPossibleFee) exampleState.unclaimedTransactions ∧
    PostBlock exampleBlockHash exampleValidate (specBlockHeight 16) specPossibleFee
      (PostBlock exampleBlockHash exampleValidate (specBlockHeight 16) specPossibleFee
        exampleState (some exampleBlock)).1 (some exampleBlock) =
    PostBlock exampleBlockHash exampleValidate (specBlockHeight 16) specPossibleFee
      exampleState (some exampleBlock) :=
  ⟨by decide, by simp [TreesetWF, exampleState],
   PostBlock_twice exampleBlockHash exampleValidate (specBlockHeight 16) specPossibleFee
     exampleState exampleBlock (by decide) (by simp [TreesetWF, exampleState])⟩

/-! ## Theorems: pool comparator -/

/-- C6 as stated fails: the two example transactions have different hashes and
the same fee, and the comparator returns 0 for them. -/
theorem equal_fee_compares_zero :
    exampleTxHash exampleTx ≠ exampleTxHash exampleTx2 ∧
    specPossibleFee exampleTx = specPossibleFee exampleTx2 ∧
    compareTxByCollectableFee specPossibleFee (PoolItem.tx exampleTx)
      (PoolItem.tx exampleTx2) = 0 := by
  decide

/-- C6 amended: for two values of type `blockchain.Transaction` the comparator
returns 1 exactly when the fee of the first is greater, -1 exactly when it is
smaller and 0 exactly when the fees are equal, whatever the hashes. -/
theorem compareTxByCollectableFee_by_fee (fee : Transaction → Int) (a b : Transaction) :
    (compareTxByCollectableFee fee (PoolItem.tx a) (PoolItem.tx b) = 1 ↔ fee a > fee b) ∧
    (compareTxByCollectableFee fee (PoolItem.tx a) (PoolItem.tx b) = -1 ↔ fee a < fee b) ∧
    (compareTxByCollectableFee fee (PoolItem.tx a) (PoolItem.tx b) = 0 ↔ fee a = fee b) := by
  unfold compareTxByCollectableFee
  simp only [PoolItem.assertTransaction]
  split
  · next h => simp; omega
  · split
    · next h1 h2 => simp; omega
    · next h1 h2 => simp; omega

/-! ## Theorems: `GetSpecificBlocks` -/

theorem blocksLoop_missing (table : GoMap Block) (ok : Bool) (current : String)
    (hmiss : table current = none) :
    ∀ (k : Nat) (acc : List Block), blocksLoop table ok k acc current = acc := by
  intro k
  induction k with
  | zero => intro acc; rfl
  | succ k ih =>
    intro acc
    unfold blocksLoop
    split
    · simp only [hmiss]; exact ih acc
    · rfl

theorem blocksLoop_eq_chainFrom (table : GoMap Block) :
    ∀ (k : Nat) (acc : List Block) (current : String),
      blocksLoop table true k acc current = acc ++ chainFrom table k current := by
  intro k
  induction k with
  | zero => intro acc current; simp [blocksLoop, chainFrom]
  | succ k ih =>
    intro acc current
    by_cases hc : current = ""
    · simp [blocksLoop, chainFrom, hc]
    · cases hlook : table current with
      | none =>
        rw [blocksLoop_missing table true current hlook]
        simp [chainFrom, hc, hlook]
      | some b =>
        simp only [blocksLoop, chainFrom, hc, hlook, if_false]
        simp [ih, hc]

theorem nextHash_cons (h : String) (b : Block) (rest : List Block) :
    nextHash h (b :: rest) = nextHash b.Prev rest := by
  cases rest with
  | nil => simp [nextHash]
  | cons c cs =>
    simp only [nextHash, List.getLast?_cons_cons]
    cases hl : (c :: cs).getLast? with
    | none => simp at hl
    | some x => rfl

theorem chainFrom_length_le (table : GoMap Block) :
    ∀ (n : Nat) (h : String), (chainFrom table n h).length ≤ n := by
  intro n
  induction n with
  | zero => intro h; simp [chainFrom]
  | succ n ih =>
    intro h
    unfold chainFrom
    split
    · simp
    · split
      · simp
      · next b hb => simp; exact ih b.Prev

theorem chainFrom_stops (table : GoMap Block) :
    ∀ (n : Nat) (h : String),
      (chainFrom table n h).length = n ∨ nextHash h (chainFrom table n h) = "" ∨
        table (nextHash h (chainFrom table n h)) = none := by
  intro n
  induction n with
  | zero => intro h; left; simp [chainFrom]
  | succ n ih =>
    intro h
    unfold chainFrom
    split
    · next hempty => right; left; simp [nextHash, hempty]
    · split
      · next hnone => right; right; simp [nextHash, hnone]
      · next b hb =>
        rw [nextHash_cons]
        rcases ih b.Prev with h1 | h2 | h3
        · left; simp [h1]
        · right; left; exact h2
        · right; right; exact h3

theorem chainFrom_links (table : GoMap Block) :
    ∀ (n : Nat) (h : String) (i : Nat) (b : Block),
      (chainFrom table n h)[i]? = some b →
        nextHash h ((chainFrom table n h).take i) ≠ "" ∧
        table (nextHash h ((chainFrom table n h).take i)) = some b := by
  intro n
  induction n with
  | zero => intro h i b hb; simp [chainFrom] at hb
  | succ n ih =>
    intro h i b
    unfold chainFrom
    split
    · intro hb; simp at hb
    · next hne =>
      split
      · intro hb; simp at hb
      · next b0 hb0 =>
        intro hb
        cases i with
        | zero =>
          simp at hb
          subst hb
          simp [nextHash, hne, hb0]
        | succ j =>
          simp only [List.getElem?_cons_succ] at hb
          simp only [List.take_succ_cons, nextHash_cons]
          exact ih b0.Prev j b hb

/-- For a count parameter that `Atoi` reads as `n >= 1` and for which the slice
of capacity `n` can be made, `GetSpecificBlocks` answers with the walk
`table[h]`, `table[b_0.Prev]`, ...: it has at most `n` blocks, every block is
the table entry under the (non-empty) hash the walk has reached, and it ends
when `n` blocks are collected or the next hash is empty or missing from the
table; it is empty when `h` is missing.  A count parameter that is not an
integer, or is an integer `<= 0`, is answered with status 400. -/
theorem GetSpecificBlocks_walk (blockSize : Nat) (s : NodeState) (h : String)
    (numParam : String) :
    (∀ n : Int, Atoi numParam = some n → 1 ≤ n → blockSize * n.toNat ≤ maxAlloc →
      GetSpecificBlocks blockSize s (some h) numParam =
        some { status := 200, json := some (chainFrom s.blocklist n.toNat h) } ∧
      (chainFrom s.blocklist n.toNat h).length ≤ n.toNat ∧
      ((chainFrom s.blocklist n.toNat h).length = n.toNat ∨
        nextHash h (chainFrom s.blocklist n.toNat h) = "" ∨
        s.blocklist (nextHash h (chainFrom s.blocklist n.toNat h)) = none) ∧
      (∀ (i : Nat) (b : Block), (chainFrom s.blocklist n.toNat h)[i]? = some b →
        nextHash h ((chainFrom s.blocklist n.toNat h).take i) ≠ "" ∧
        s.blocklist (nextHash h ((chainFrom s.blocklist n.toNat h).take i)) = some b) ∧
      (s.blocklist h = none → chainFrom s.blocklist n.toNat h = [])) ∧
    ((Atoi numParam = none ∨ ∃ n : Int, Atoi numParam = some n ∧ n ≤ 0) →
      ∀ hashVar : Option String,
        GetSpecificBlocks blockSize s hashVar numParam =
          some { status := 400, json := none }) := by
  refine ⟨?_, ?_⟩
  · intro n hparse hpos halloc
    refine ⟨?_, chainFrom_length_le _ _ _, chainFrom_stops _ _ _, chainFrom_links _ _ _, ?_⟩
    · have hnot : ¬ n ≤ 0 := by omega
      have hneg : ¬ n < 0 := by omega
      have hfit : ¬ blockSize * n.toNat > maxAlloc := by omega
      simp [GetSpecificBlocks, makeSlice, hparse, hnot, hneg, hfit, blocksLoop_eq_chainFrom]
    · intro hmiss
      cases hn : n.toNat with
      | zero => rfl
      | succ k => simp [chainFrom, hmiss]
  · intro hbad hashVar
    rcases hbad with hnone | ⟨n, hsome, hle⟩
    · simp [GetSpecificBlocks, hnone]
    · simp [GetSpecificBlocks, hsome, hle]

/-- With blocks of 80 bytes, the count "5" from "B1" gives the walk and the
count "abc" gives status 400. -/
theorem GetSpecificBlocks_walk_example :
    Atoi "5" = some 5 ∧ Atoi "abc" = none ∧
    GetSpecificBlocks 80 exampleChainState (some "B1") "5" =
      some { status := 200,
             json := some (chainFrom exampleChainState.blocklist (5 : Int).toNat "B1") } ∧
    GetSpecificBlocks 80 exampleChainState (some "B1") "abc" =
      some { status := 400, json := none } :=
  ⟨by decide, by decide,
   ((GetSpecificBlocks_walk 80 exampleChainState "B1" "5").1 5 (by decide) (by decide)
      (by decide)).1,
   (GetSpecificBlocks_walk 80 exampleChainState "B1" "abc").2 (Or.inl (by decide))
     (some "B1")⟩

/-- C7: the count 9223372036854775807 is a positive integer that `Atoi` accepts,
and for it `GetSpecificBlocks` does not answer with the walk: whatever the
(non-zero) size of a block, the slice of that capacity cannot be made and the
handler panics before it looks at the block table. -/
theorem GetSpecificBlocks_panics_on_huge_count (blockSize : Nat) (s : NodeState)
    (hashVar : Option String) (hsize : 0 < blockSize) :
    Atoi "9223372036854775807" = some 9223372036854775807 ∧
    (1 : Int) ≤ 9223372036854775807 ∧
    GetSpecificBlocks blockSize s hashVar "9223372036854775807" = none := by
  have hparse : Atoi "9223372036854775807" = some 9223372036854775807 := by decide
  refine ⟨hparse, by decide, ?_⟩
  have hbig : blockSize * (9223372036854775807 : Int).toNat > maxAlloc := by
    have h1 : (9223372036854775807 : Int).toNat = 9223372036854775807 := by decide
    have h2 : maxAlloc = 281474976710656 := by decide
    rw [h1, h2]
    omega
  have hmake : makeSlice Block blockSize 9223372036854775807 = none := by
    unfold makeSlice
    rw [if_pos (Or.inr hbig)]
  simp [GetSpecificBlocks, hparse, hmake]

/-- With blocks of 80 bytes and the example table, which holds the start hash
"B1", the count 9223372036854775807 makes the handler panic. -/
theorem GetSpecificBlocks_panics_on_huge_count_witness :
    0 < 80 ∧ exampleChainState.blocklist "B1" ≠ none ∧
    GetSpecificBlocks 80 exampleChainState (some "B1") "9223372036854775807" = none :=
  ⟨by decide, by decide,
   (GetSpecificBlocks_panics_on_huge_count 80 exampleChainState (some "B1") (by decide)).2.2⟩

/-- The walk of five blocks from "B1" in the example table: the block and genesis. -/
theorem chainFrom_example :
    chainFrom exampleChainState.blocklist 5 "B1" =
      [{ exampleBlock with Hash := "B1" }, exampleGenesis] := by
  decide

/-- What `Atoi` makes of some count parameters. -/
theorem Atoi_examples :
    Atoi "0" = some 0 ∧ Atoi "-3" = some (-3) ∧ Atoi "+7" = some 7 ∧ Atoi "" = none ∧
    Atoi "1.5" = none ∧ Atoi "9223372036854775808" = none := by
  decide

/-! ## Theorems: peers -/

theorem specPeerValidate_iff (addr : String) :
    specPeerValidate { Addr := addr } = true ↔ HasScheme "http" addr ∨ HasScheme "https" addr := by
  unfold specPeerValidate HasScheme
  rw [Bool.or_eq_true, List.isPrefixOf_iff_prefix, List.isPrefixOf_iff_prefix]
  constructor
  · rintro (⟨t, ht⟩ | ⟨t, ht⟩)
    · left; exact ⟨t, ht.symm⟩
    · right; exact ⟨t, ht.symm⟩
  · rintro (⟨t, ht⟩ | ⟨t, ht⟩)
    · left; exact ⟨t, ht.symm⟩
    · right; exact ⟨t, ht.symm⟩

/-- C9: a peer created from an address validates exactly when the address has
an http or https scheme (so do the three addresses of `TestCreatePeer`);
`GetPeers` returns the peer list unchanged when the created peer does not
validate, in particular for an address with another scheme, and passes a
non-empty address with an http or https scheme to `AddPeer`. -/
theorem peer_accepted_only_with_http_scheme :
    (∀ addr : String, (specCreatePeer addr).map specPeerValidate = some true ↔
      HasScheme "http" addr ∨ HasScheme "https" addr) ∧
    (specCreatePeer "http://heise.de/").map specPeerValidate = some true ∧
    (specCreatePeer "https://heise:7654.de").map specPeerValidate = some true ∧
    (specCreatePeer "ftp://heise.de/").map specPeerValidate = some false ∧
    (∀ (CreatePeer : String → Option Peer) (Validate : Peer → Bool)
        (AddPeer : List Peer → Peer → List Peer) (PeerList : List Peer) (addr : String),
      (∀ p : Peer, CreatePeer addr = some p → Validate p = false) →
        (GetPeers CreatePeer Validate AddPeer PeerList addr).1 = PeerList) ∧
    (∀ (AddPeer : List Peer → Peer → List Peer) (PeerList : List Peer) (addr : String),
      ¬ (HasScheme "http" addr ∨ HasScheme "https" addr) →
        (GetPeers specCreatePeer specPeerValidate AddPeer PeerList addr).1 = PeerList) ∧
    (∀ (AddPeer : List Peer → Peer → List Peer) (PeerList : List Peer) (addr : String),
      HasScheme "http" addr ∨ HasScheme "https" addr →
        (GetPeers specCreatePeer specPeerValidate AddPeer PeerList addr).1 =
          AddPeer PeerList { Addr := addr }) := by
  have hgeneral : ∀ (CreatePeer : String → Option Peer) (Validate : Peer → Bool)
      (AddPeer : List Peer → Peer → List Peer) (PeerList : List Peer) (addr : String),
      (∀ p : Peer, CreatePeer addr = some p → Validate p = false) →
        (GetPeers CreatePeer Validate AddPeer PeerList addr).1 = PeerList := by
    intro CreatePeer Validate AddPeer PeerList addr hno
    unfold GetPeers
    simp only
    split
    · cases hc : CreatePeer addr with
      | none => rfl
      | some p => simp [hno p hc]
    · rfl
  refine ⟨?_, by decide, by decide, by decide, hgeneral, ?_, ?_⟩
  · intro addr
    simp only [specCreatePeer, Option.map_some', Option.some.injEq]
    exact specPeerValidate_iff addr
  · intro AddPeer PeerList addr hscheme
    apply hgeneral
    intro p hp
    simp only [specCreatePeer, Option.some.injEq] at hp
    subst hp
    rw [← specPeerValidate_iff] at hscheme
    simpa using hscheme
  · intro AddPeer PeerList addr hscheme
    have hv : specPeerValidate { Addr := addr } = true := (specPeerValidate_iff addr).mpr hscheme
    have hne : addr ≠ "" := by
      rintro rfl
      rcases hscheme with ⟨t, ht⟩ | ⟨t, ht⟩ <;> simp at ht
    simp [GetPeers, specCreatePeer, hv, hne]

/-- An ftp address leaves the example peer list unchanged, an http address is
passed to `AddPeer`. -/
theorem peer_accepted_only_with_http_scheme_witness :
    ¬ (HasScheme "http" "ftp://heise.de/" ∨ HasScheme "https" "ftp://heise.de/") ∧
    (GetPeers specCreatePeer specPeerValidate exampleAddPeer
      [{ Addr := "http://localhost:8000" }] "ftp://heise.de/").1 =
      [{ Addr := "http://localhost:8000" }] ∧
    (GetPeers specCreatePeer specPeerValidate exampleAddPeer
      [{ Addr := "http://localhost:8000" }] "http://heise.de/").1 =
      exampleAddPeer [{ Addr := "http://localhost:8000" }] { Addr := "http://heise.de/" } :=
  ⟨fun h => absurd ((specPeerValidate_iff "ftp://heise.de/").mpr h) (by decide),
   peer_accepted_only_with_http_scheme.2.2.2.2.2.1 exampleAddPeer
     [{ Addr := "http://localhost:8000" }] "ftp://heise.de/"
     (fun h => absurd ((specPeerValidate_iff "ftp://heise.de/").mpr h) (by decide)),
   peer_accepted_only_with_http_scheme.2.2.2.2.2.2 exampleAddPeer
     [{ Addr := "http://localhost:8000" }] "http://heise.de/"
     (Or.inl ⟨"heise.de/".toList, by decide⟩)⟩

end MyBlockchain
